import Mathlib

/-!
Verification of the price-analytics pipeline of PythonProject_Invest_Dash.

A price/return frame is modelled as a list of date rows in ascending date
order; each row is a list of per-instrument cells in a fixed instrument
order, and a cell is an optional rational: none models a pandas NaN
(missing value).  The frame-shaping steps of the loaders (field selection,
single-ticker coercion) concern the external provider response and are cut
at the point where the per-instrument price frame exists; everything from
there on is modelled cell by cell.
-/

set_option autoImplicit false

/-- A cell of a table: none models a missing value (pandas NaN). -/
abbrev Entry : Type := Option ℚ

/-- A date row: one cell per instrument, in a fixed instrument order. -/
abbrev Row : Type := List Entry

/-- A table: date rows in ascending date order. -/
abbrev Table : Type := List Row

/-- The row is entirely missing (the rows dropped by dropna with how equal to all). -/
def rowAllNA (r : Row) : Bool := r.all Option.isNone

/-- The row contains at least one missing cell (the rows dropped by the default dropna). -/
def rowAnyNA (r : Row) : Bool := r.any Option.isNone

/-- df.dropna with the how equal to all policy: drop the rows in which every cell is missing. -/
def dropnaAll (t : Table) : Table := t.filter (fun r => !rowAllNA r)

/-- df.dropna with the default policy: drop the rows containing any missing cell. -/
def dropnaAny (t : Table) : Table := t.filter (fun r => !rowAnyNA r)

/-- data.py load_price_data, from the point where the adjusted-close frame df
has been extracted: the source evaluates df.dropna(how equal to all) on line 22
but never assigns the result, so the function returns df itself, unchanged. -/
def load_price_data (df : Table) : Table := df

/-- app.py load_data (also main_corr.py, main_dash.py, main_new.py), same stage:
returns df.dropna(how equal to all). -/
def load_data (df : Table) : Table := dropnaAll df

/-- Cell-wise float division as pandas performs it in normalize_data: missing if
either operand is missing.  A zero divisor produces a non-finite float (NaN for
0/0, a signed infinity otherwise); the model folds both non-finite outcomes into
the missing marker, and every theorem whose content depends on a zero divisor
carries an explicit nonzero hypothesis; the counterexamples below only exercise
the 0/0 case, where NaN agrees with the missing marker. -/
def qdiv : Entry → Entry → Entry
  | some a, some b => if b = 0 then none else some (a / b)
  | some _, none => none
  | none, _ => none

/-- Cell-wise product, missing-propagating (used by cumprod). -/
def qmul : Entry → Entry → Entry
  | some a, some b => some (a * b)
  | some _, none => none
  | none, _ => none

/-- Divide a row cell-wise by a base row (one row of df / df.iloc[0]). -/
def rowDiv (r b : Row) : Row := List.zipWith qdiv r b

/-- app.py (lines 19-23) and main_new.py (lines 22-26) normalize_data: drop the
incomplete rows, return the empty frame if nothing remains, otherwise divide
every remaining row by the first remaining row. -/
def normalize_data (df : Table) : Table :=
  match dropnaAny df with
  | [] => []
  | b :: rest => (b :: rest).map (fun r => rowDiv r b)

/-- main_corr.py (lines 17-19), main_dash.py (lines 25-27) and main_plot.py
(lines 19-21) normalize_data: df / df.iloc[0] with no emptiness guard and no
dropna; on an empty frame df.iloc[0] raises IndexError, modelled as none. -/
def normalize_data_corr (df : Table) : Option Table :=
  match df with
  | [] => none
  | b :: rest => some ((b :: rest).map (fun r => rowDiv r b))

/-- One cell of df.pct_change() with no forward filling: the relative change
b / a - 1 of the current value b against the previous value a, missing when
either is missing.  For a = 0 the float result is a signed infinity, which is
not NaN and is therefore retained by dropna; the model likewise keeps a defined
value there, so row counts agree, and value-level theorems assume nonzero
prices. -/
def pctEntry : Entry → Entry → Entry
  | some a, some b => some (b / a - 1)
  | some _, none => none
  | none, _ => none

/-- Cell-wise percent change of one date row against the previous date row. -/
def pctRow (p c : Row) : Row := List.zipWith pctEntry p c

/-- df.pct_change(): the first row becomes all-missing (it has no prior row)
and every later row is the cell-wise relative change against its predecessor. -/
def pct_change : Table → Table
  | [] => []
  | r :: rest => r.map (fun _ => (none : Entry)) :: List.zipWith pctRow (r :: rest) rest

/-- data.py calculate_returns (the same expression df.pct_change().dropna()
appears in the plot_returns, plot_cumulative_returns and plot_correlation
functions of app.py, main_corr.py, main_dash.py, main_new.py, main_plot.py). -/
def calculate_returns (df : Table) : Table := dropnaAny (pct_change df)

/-- The return frame used by plot_correlation: df.pct_change().dropna(). -/
def retTable (df : Table) : Table := dropnaAny (pct_change df)

/-- Cell-wise 1 + x of a row, as in (1 + returns). -/
def onePlusRow (r : Row) : Row := r.map (Option.map (fun x => 1 + x))

/-- Running cell-wise product of two rows (the step of cumprod). -/
def rowMul (a b : Row) : Row := List.zipWith qmul a b

/-- DataFrame.cumprod(): running cell-wise product down the rows, accumulated
from acc (the first output row is acc times the first input row). -/
def cumprodFrom (acc : Row) : Table → Table
  | [] => []
  | r :: rest => rowMul acc r :: cumprodFrom (rowMul acc r) rest

/-- app.py plot_cumulative_returns: returns = df.pct_change().dropna() followed
by (1 + returns).cumprod(). -/
def cumulative_returns (df : Table) : Table :=
  match dropnaAny (pct_change df) with
  | [] => []
  | r :: rest => cumprodFrom (r.map (fun _ => (some 1 : Entry))) ((r :: rest).map onePlusRow)

/-- Column i of a frame (df[column]); missing outside a row's width. -/
def col (t : Table) (i : ℕ) : List Entry := t.map (fun r => r.getD i none)

/-- The trailing window of w observations of a series ending at index k. -/
def windowAt (xs : List Entry) (w k : ℕ) : List Entry :=
  (xs.take (k + 1)).drop (k + 1 - w)

/-- Sum of the values of a fully defined list of cells. -/
def entrySum (xs : List Entry) : ℚ := (xs.map (fun e => e.getD 0)).sum

/-- Series.rolling(w).mean() with the default min_periods equal to w: the cell
at index k is defined iff at least w observations exist up to k and no cell of
the trailing window is missing, and is then the unweighted mean of the
window. -/
def rollingMean (xs : List Entry) (w : ℕ) : List Entry :=
  (List.range xs.length).map (fun k =>
    if k + 1 < w then none
    else if (windowAt xs w k).all Option.isSome then
      some (entrySum (windowAt xs w k) / (w : ℚ))
    else none)

/-- The tail of Series.ewm(span equal to w, adjust equal to False).mean() after
the state s: each value y satisfies y = (1 - a) * s + a * x for the incoming
observation x, with s then replaced by y. -/
def ewmFrom (a : ℚ) (s : ℚ) : List ℚ → List ℚ
  | [] => []
  | x :: rest => ((1 - a) * s + a * x) :: ewmFrom a ((1 - a) * s + a * x) rest

/-- Series.ewm(span equal to w, adjust equal to False).mean() on a gap-free
series: the smoothing factor is 2 / (w + 1), the state is seeded from the first
observation (whose output value is itself), and every position receives a
value.  The NaN-carrying generalization of pandas ewm is not needed by the
properties below, which concern gap-free series. -/
def ewm_mean (xs : List ℚ) (w : ℕ) : List ℚ :=
  match xs with
  | [] => []
  | x :: rest => x :: ewmFrom (2 / ((w : ℚ) + 1)) x rest

/-- The state machine of Series.ewm(span equal to w, adjust equal to False,
the default ignore_na equal to False).mean() in the presence of missing
values; the state is the running weighted average together with the decayed
weight of the prior state (pandas old_wt).  Before any observation the output
is missing; the first observation seeds the state and is returned unchanged;
a missing value afterwards returns the running average unchanged and decays
the prior weight by (1 - a); an observation first decays the prior weight,
then sets avg to (w * avg + a * x) / (w + a) and resets the weight to 1. -/
def ewmRun (a : ℚ) : Option (ℚ × ℚ) → List Entry → List Entry
  | _, [] => []
  | none, none :: rest => none :: ewmRun a none rest
  | none, some x :: rest => some x :: ewmRun a (some (x, 1)) rest
  | some (avg, w), none :: rest => some avg :: ewmRun a (some (avg, w * (1 - a))) rest
  | some (avg, w), some x :: rest =>
      some ((w * (1 - a) * avg + a * x) / (w * (1 - a) + a))
        :: ewmRun a (some ((w * (1 - a) * avg + a * x) / (w * (1 - a) + a), 1)) rest

/-- Series.ewm(span equal to w, adjust equal to False).mean() on a series that
may contain missing values, smoothing factor 2 / (w + 1); on a gap-free series
this coincides with ewm_mean (proved below). -/
def ewm_mean_na (xs : List Entry) (w : ℕ) : List Entry :=
  ewmRun (2 / ((w : ℚ) + 1)) none xs

/-- w times ((w - 1) times the sample variance) of a window of w values:
n * (sum of squares) - (sum)^2 for n values.  The sample variance is this
divided by n * (n - 1), and the rolling standard deviation of the source is
its square root. -/
def svNum (ws : List ℚ) : ℚ :=
  (ws.length : ℚ) * (ws.map (fun x => x * x)).sum - ws.sum * ws.sum

/-- Sample variance (ddof equal to 1) of a window of values. -/
def sampleVar (ws : List ℚ) : ℚ :=
  svNum ws / ((ws.length : ℚ) * ((ws.length : ℚ) - 1))

/-- Series.rolling(w).std() represented up to the final square root: the cell
at index k holds the sample variance of the trailing w observations; the
source's standard deviation is its square root, which is irrational in general
and total on the defined cells, so a cell is defined in the source iff it is
defined here.  With ddof equal to 1 a window of a single observation divides
zero by zero, i.e. NaN, hence the w < 2 guard. -/
def rollingVar (xs : List Entry) (w : ℕ) : List Entry :=
  (List.range xs.length).map (fun k =>
    if k + 1 < w ∨ w < 2 then none
    else if (windowAt xs w k).all Option.isSome then
      some (sampleVar ((windowAt xs w k).map (fun e => e.getD 0)))
    else none)

/-- Column i of app.py plot_volatility: df.pct_change().rolling(w).std(), with
the standard deviation represented by the sample variance (its square). -/
def volatilityCol (df : Table) (i w : ℕ) : List Entry :=
  rollingVar (col (pct_change df) i) w

/-- Number of leading missing cells of a series. -/
def leadingNones (xs : List Entry) : ℕ := (xs.takeWhile Option.isNone).length

/-- Column i of a fully defined frame, as plain rationals. -/
def colQ (t : Table) (i : ℕ) : List ℚ := t.map (fun r => (r.getD i none).getD 0)

/-- n times the centered product sum of two equal-length series of n values:
n * (sum of x * y) - (sum of x) * (sum of y).  The Pearson correlation of the
two series is sNum x y divided by the square root of sNum x x * sNum y y, and
pandas corr yields NaN exactly when that denominator vanishes (which subsumes
the fewer-than-two-observations case). -/
def sNum (xs ys : List ℚ) : ℚ :=
  (xs.length : ℚ) * (List.zipWith (fun a b => a * b) xs ys).sum - xs.sum * ys.sum

/-- Numerator of the cell (i, j) of returns.corr() in plot_correlation. -/
def corrNum (df : Table) (i j : ℕ) : ℚ :=
  sNum (colQ (retTable df) i) (colQ (retTable df) j)

/-- Square of the denominator of the cell (i, j) of returns.corr(). -/
def corrDenSq (df : Table) (i j : ℕ) : ℚ :=
  sNum (colQ (retTable df) i) (colQ (retTable df) i) *
    sNum (colQ (retTable df) j) (colQ (retTable df) j)

/-- The cell (i, j) of returns.corr() in plot_correlation carries a defined
number (pandas yields NaN exactly when a variance factor of the denominator
vanishes). -/
def corrDefined (df : Table) (i j : ℕ) : Bool :=
  decide (sNum (colQ (retTable df) i) (colQ (retTable df) i) ≠ 0) &&
    decide (sNum (colQ (retTable df) j) (colQ (retTable df) j) ≠ 0)

/-- Modelled from the spec (pairwise-complete observations): the rows of the
spec's ReturnTable at which BOTH instruments i and j have a defined return, as
pairs of values.  The spec's ReturnTable keeps the date rows that have a gap;
the all-missing leading row of pct_change is excluded here automatically. -/
def pairObs (t : Table) (i j : ℕ) : List (ℚ × ℚ) :=
  t.filterMap (fun r =>
    (r.getD i none).bind (fun a => (r.getD j none).map (fun b => (a, b))))

/-- Modelled from the spec: the pairwise-complete Pearson correlation of the
returns of instruments i and j carries a defined number (nonvanishing
denominator over the pairwise-complete observations). -/
def corrPairDefined (df : Table) (i j : ℕ) : Bool :=
  decide (sNum ((pairObs (pct_change df) i j).map Prod.fst)
      ((pairObs (pct_change df) i j).map Prod.fst) ≠ 0) &&
    decide (sNum ((pairObs (pct_change df) i j).map Prod.snd)
      ((pairObs (pct_change df) i j).map Prod.snd) ≠ 0)

/-! ### Concrete tables used by the counterexamples and code-bug evidence -/

/-- A raw two-instrument price frame whose second date row is missing for
every instrument. -/
def tAllMissingRow : Table := [[some 1, some 2], [none, none]]

/-- A gap-free one-instrument price frame over three consecutive dates. -/
def tThreeDays : Table := [[some 100], [some 110], [some 121]]

/-- A non-empty two-instrument price frame in which every date row has a gap
for one of the instruments (each row still has a non-missing value, as the
PriceTable invariant demands). -/
def tEveryRowGapped : Table := [[some 1, none], [none, some 2]]

/-- A non-empty two-instrument price frame whose first date row has a gap in
the second instrument while the second row is complete. -/
def tFirstRowGap : Table := [[some 2, none], [some 4, some 8]]

/-- A price column whose first value is missing (the instrument starts trading
after the frame's first date) and which is observed afterwards. -/
def sLeadingGap : List Entry := [none, some 5, some 6]

/-- A gap-free one-instrument price frame over four consecutive dates with
non-constant returns. -/
def tFourDays : Table := [[some 1], [some 2], [some 4], [some 8]]

/-- A gap-free one-instrument price frame whose returns are constant (zero
return variance). -/
def tConstReturns : Table := [[some 1], [some 2], [some 4]]

/-- A one-instrument price frame whose prices are zero. -/
def tZeroPrices : Table := [[some 0], [some 0]]

/-- A three-instrument price frame: the first two instruments are gap-free
with non-constant returns; the third has prices only on the last two dates,
so its return is defined on the last date only. -/
def tThirdGapped : Table :=
  [[some 1, some 1, none], [some 2, some 2, none], [some 4, some 4, none],
   [some 8, some 8, some 1], [some 24, some 40, some 2]]

/-- A gap-free two-instrument two-day price frame with nonzero prices. -/
def dfTwoByTwo : Table := [[some 2, some 4], [some 3, some 8]]

/-- A two-instrument frame whose first date row has a gap and whose later rows
are complete with nonzero prices. -/
def dfGapThenFull : Table := [[some 2, none], [some 4, some 8], [some 6, some 16]]

/-- A gap-free one-instrument three-day frame used to witness the length law. -/
def dfThreeRows : Table := [[some 2], [some 4], [some 6]]

/-- A gap-free one-instrument price frame with nonzero prices 2, 4, 8. -/
def dfDoubling : Table := [[some 2], [some 4], [some 8]]

/-- The correlation matrix of plot_correlation in numerator/denominator
representation: the cell (i, j) of returns.corr() equals the first component
divided by the square root of the second, and is NaN exactly when the second
vanishes. -/
def corr_matrix (df : Table) (m : ℕ) : List (List (ℚ × ℚ)) :=
  (List.range m).map (fun i2 => (List.range m).map (fun j2 => (corrNum df i2 j2, corrDenSq df i2 j2)))

/-- A gap-free one-instrument price frame with non-constant returns (1 and 2),
hence non-zero return variance. -/
def dfVaried : Table := [[some 1], [some 2], [some 6]]

/-! ### Claim theorems (closed statements) -/

/-- Claim C1 (code bug evidence): on a raw price frame containing an
all-missing date row, data.py load_price_data returns the frame unchanged and
the all-missing row is retained, because line 22 evaluates
df.dropna(how equal to all) but discards the result; the same frame passed
through app.py load_data has the row dropped, which is the documented intent
(per-instrument gaps are retained either way, with no forward fill). -/
theorem c1_load_price_data_keeps_all_missing_row :
    load_price_data tAllMissingRow = tAllMissingRow
      ∧ (load_price_data tAllMissingRow).any rowAllNA = true
      ∧ load_data tAllMissingRow = [[some 1, some 2]] := by
  decide

/-- Claim C2 (counterexample): on tThirdGapped the whole-frame dropna of
plot_correlation leaves a single complete return row, so the correlation cell
of the first two instruments has a vanishing denominator and is NaN, although
the pairwise-complete correlation of those two instruments is defined (four
shared return dates, both with nonzero variance).  Hence correlate does not
compute pairwise-complete correlations. -/
theorem c2_whole_table_dropna_not_pairwise :
    corrDefined tThirdGapped 0 1 = false
      ∧ corrPairDefined tThirdGapped 0 1 = true := by
  norm_num [corrDefined, corrPairDefined, sNum, colQ, retTable, pairObs, tThirdGapped,
    pct_change, pctRow, pctEntry, dropnaAny, rowAnyNA, List.getD, List.filterMap_cons]

/-- Claim C3 (counterexample): on the gap-free frame tThreeDays (prices 100,
110, 121) the cumulative return at the last date equals 121/100, the growth
factor since the first trading day, i.e. since the normalization base row
(index 0), and differs from 121/110, the growth factor since the second
trading day (index 1). -/
theorem c3_growth_is_since_first_day :
    cumulative_returns tThreeDays = [[some (11 / 10)], [some (121 / 100)]]
      ∧ (cumulative_returns tThreeDays).getD 1 []
          = rowDiv (tThreeDays.getD 2 []) (tThreeDays.getD 0 [])
      ∧ qdiv ((tThreeDays.getD 2 []).getD 0 none) ((tThreeDays.getD 1 []).getD 0 none)
          = some (11 / 10)
      ∧ ((some (121 / 100) : Entry) ≠ (some (11 / 10) : Entry)) := by
  norm_num [cumulative_returns, tThreeDays, pct_change, pctRow, pctEntry, dropnaAny,
    rowAnyNA, cumprodFrom, rowMul, qmul, onePlusRow, rowDiv, qdiv, List.getD]

/-- Claim C4 (counterexample): the normalize_data of main_corr.py (cited by the
claim), main_dash.py and main_plot.py divides by df.iloc[0] with no emptiness
guard, so on the empty frame it faults (IndexError) instead of returning an
empty frame. -/
theorem c4_unguarded_normalize_faults_on_empty :
    normalize_data_corr ([] : Table) = none := by
  decide

/-- Claim C4 (amended): the guarded normalize_data of app.py and main_new.py,
and the return, cumulative-return and correlation-input engines, all map the
empty frame to the empty frame without faulting; only the unguarded
normalize_data variant of main_corr.py, main_dash.py and main_plot.py faults
there. -/
theorem c4_empty_in_empty_out :
    normalize_data ([] : Table) = []
      ∧ calculate_returns ([] : Table) = []
      ∧ cumulative_returns ([] : Table) = []
      ∧ retTable ([] : Table) = []
      ∧ load_data ([] : Table) = [] := by
  decide

/-- Claim C5 (counterexample, both cited variants): for the guarded
normalize_data of app.py, the non-empty PriceTable tEveryRowGapped (each row
has a non-missing value, but every row has some gap) normalizes to the empty
frame, which has no first row at all, let alone an all-ones one; for the
unguarded normalize_data of main_dash.py, the non-empty frame tFirstRowGap,
whose first row has a gap, yields the first output row [1.0, NaN], which is
not 1.0 in every instrument column. -/
theorem c5_nonempty_table_empty_normalization :
    (tEveryRowGapped ≠ [] ∧ normalize_data tEveryRowGapped = [])
      ∧ normalize_data_corr tFirstRowGap = some [[some 1, none], [some 2, none]] := by
  refine ⟨by decide, ?_⟩
  norm_num [normalize_data_corr, tFirstRowGap, rowDiv, qdiv]

/-- Claim C6 (counterexample): on the empty PriceTable the returns frame is
empty, and no k with 1 ≤ k satisfies len(returns) + k = len(table), so the
claimed length identity has no witness at the empty table. -/
theorem c6_empty_table_has_no_k :
    calculate_returns ([] : Table) = []
      ∧ ¬ ∃ k : ℕ, 1 ≤ k ∧ (calculate_returns ([] : Table)).length + k = ([] : Table).length := by
  refine ⟨rfl, ?_⟩
  rintro ⟨k, hk, h⟩
  simp [calculate_returns, pct_change, dropnaAny] at h
  omega

/-- Claim C7 (counterexample): volatility with window 2 on the gap-free
four-day frame tFourDays has two leading undefined cells, not the claimed
w - 1 = 1: the first price row has no return, which adds one row to the
w - 1 rolling warm-up. -/
theorem c7_leading_undefined_is_w_not_w_minus_one :
    volatilityCol tFourDays 0 2 = [none, none, some 0, some 0]
      ∧ leadingNones (volatilityCol tFourDays 0 2) = 2
      ∧ (2 : ℕ) ≠ 2 - 1 := by
  have h : volatilityCol tFourDays 0 2 = [none, none, some 0, some 0] := by
    norm_num [volatilityCol, tFourDays, col, pct_change, pctRow, pctEntry, rollingVar,
      windowAt, sampleVar, svNum, List.range_succ, List.getD]
  refine ⟨h, ?_, by decide⟩
  rw [h]
  rfl

/-- Claim C9 (counterexample): on the single-instrument frame tConstReturns the
return series is constant, so the sole cell of the 1 by 1 correlation matrix
has zero variance in its denominator and is NaN in pandas, not 1.0. -/
theorem c9_single_instrument_constant_returns_nan :
    (retTable tConstReturns).length = 2
      ∧ corrNum tConstReturns 0 0 = 0
      ∧ corrDefined tConstReturns 0 0 = false
      ∧ ¬ (0 < corrNum tConstReturns 0 0) := by
  have h : corrNum tConstReturns 0 0 = 0 := by
    norm_num [corrNum, sNum, colQ, retTable, tConstReturns, pct_change, pctRow, pctEntry,
      dropnaAny, rowAnyNA, List.getD]
  refine ⟨?_, h, ?_, by rw [h]; exact lt_irrefl 0⟩
  · norm_num [retTable, tConstReturns, pct_change, pctRow, pctEntry, dropnaAny, rowAnyNA]
  · norm_num [corrDefined, sNum, colQ, retTable, tConstReturns, pct_change, pctRow, pctEntry,
      dropnaAny, rowAnyNA, List.getD]

/-- Claim C10 (counterexample): on the zero-price frame tZeroPrices the first
retained row is zero, every cell divides zero by zero (NaN), and the
normalized output consists of missing values, contradicting the claim that
the output contains no missing values for every input table. -/
theorem c10_zero_base_price_gives_missing :
    normalize_data tZeroPrices = [[none], [none]]
      ∧ (normalize_data tZeroPrices).any rowAnyNA = true := by
  decide

/-! ### Helper lemmas about the table operations -/

theorem mem_dropnaAny {t : Table} {r : Row} (h : r ∈ dropnaAny t) :
    r ∈ t ∧ rowAnyNA r = false := by
  have h2 := List.mem_filter.mp h
  exact ⟨h2.1, by simpa using h2.2⟩

theorem complete_of_rowAnyNA_false {r : Row} (h : rowAnyNA r = false) :
    ∀ e ∈ r, e.isSome := by
  intro e he
  have h2 : ∀ x ∈ r, ¬ (Option.isNone x = true) := by
    simpa [rowAnyNA, List.any_eq_false] using h
  cases e with
  | none => exact absurd rfl (h2 none he)
  | some q => rfl

theorem rowAnyNA_eq_false {r : Row} (h : ∀ e ∈ r, e.isSome) : rowAnyNA r = false := by
  simp only [rowAnyNA, List.any_eq_false]
  intro e he
  have h2 := h e he
  cases e with
  | none => exact absurd h2 (by simp)
  | some q => simp

theorem dropnaAny_of_complete {t : Table} (h : ∀ r ∈ t, ∀ e ∈ r, e.isSome) :
    dropnaAny t = t :=
  List.filter_eq_self.mpr (fun r hr => by simp [rowAnyNA_eq_false (h r hr)])

theorem rowDiv_self {b : Row} (hc : ∀ e ∈ b, e.isSome)
    (hnz : ∀ q : ℚ, some q ∈ b → q ≠ 0) :
    rowDiv b b = b.map (fun _ => (some 1 : Entry)) := by
  induction b with
  | nil => rfl
  | cons e b ih =>
    cases e with
    | none => exact absurd (hc none (by simp)) (by simp)
    | some q =>
      have hq : q ≠ 0 := hnz q (by simp)
      have ihh := ih (fun e he => hc e (by simp [he])) (fun p hp => hnz p (by simp [hp]))
      simp only [rowDiv, List.zipWith_cons_cons, List.map_cons] at ihh ⊢
      rw [ihh]
      simp [qdiv, hq, div_self hq]

theorem rowDiv_isSome {r b : Row} (hr : ∀ e ∈ r, e.isSome) (hb : ∀ e ∈ b, e.isSome)
    (hnz : ∀ q : ℚ, some q ∈ b → q ≠ 0) : ∀ e ∈ rowDiv r b, e.isSome := by
  induction r generalizing b with
  | nil => intro e he; simp [rowDiv] at he
  | cons x xs ih =>
    cases b with
    | nil => intro e he; simp [rowDiv] at he
    | cons y ys =>
      intro e he
      simp only [rowDiv, List.zipWith_cons_cons, List.mem_cons] at he
      rcases he with rfl | he
      · have hx := hr x (by simp)
        have hy := hb y (by simp)
        cases x with
        | none => exact absurd hx (by simp)
        | some a =>
          cases y with
          | none => exact absurd hy (by simp)
          | some q =>
            have hq : q ≠ 0 := hnz q (by simp)
            simp [qdiv, hq]
      · exact ih (fun e he => hr e (by simp [he])) (fun e he => hb e (by simp [he]))
          (fun p hp => hnz p (by simp [hp])) e he

theorem getD_row_mem (l : List Row) (j : ℕ) (h : j < l.length) : l.getD j [] ∈ l := by
  rw [List.getD_eq_getElem _ _ h]
  exact List.getElem_mem h

theorem getD_entry_mem (r : Row) (i : ℕ) (h : i < r.length) : r.getD i none ∈ r := by
  rw [List.getD_eq_getElem _ _ h]
  exact List.getElem_mem h

theorem zip_tail_getD (f : Row → Row → Row) :
    ∀ (l : List Row) (j : ℕ), j + 1 < l.length →
      (List.zipWith f l l.tail).getD j [] = f (l.getD j []) (l.getD (j + 1) []) := by
  intro l
  induction l with
  | nil => intro j hj; simp at hj
  | cons r rest ih =>
    intro j hj
    cases rest with
    | nil => simp at hj
    | cons r2 rest2 =>
      cases j with
      | zero => simp
      | succ j =>
        have hj2 : j + 1 < (r2 :: rest2).length := by simpa using hj
        have := ih j hj2
        simpa using this

theorem row_zip_getD (f : Entry → Entry → Entry) :
    ∀ (p cs : Row) (i : ℕ), i < p.length → i < cs.length →
      (List.zipWith f p cs).getD i none = f (p.getD i none) (cs.getD i none) := by
  intro p
  induction p with
  | nil => intro cs i hi; simp at hi
  | cons x xs ih =>
    intro cs i hi1 hi2
    cases cs with
    | nil => simp at hi2
    | cons y ys =>
      cases i with
      | zero => simp
      | succ i =>
        have := ih ys i (by simpa using hi1) (by simpa using hi2)
        simpa using this

theorem pct_change_length (t : Table) : (pct_change t).length = t.length := by
  cases t with
  | nil => rfl
  | cons r rest => simp [pct_change, List.length_zipWith]

theorem firstRow_anyNA {b : Row} (hb : b ≠ []) :
    rowAnyNA (b.map (fun _ => (none : Entry))) = true := by
  cases b with
  | nil => exact absurd rfl hb
  | cons e b => simp [rowAnyNA]

/-! ### Claim C5 (amended theorem and witness) -/

/-- Claim C5 (amended, both cited variants): for the guarded normalize_data of
app.py and main_new.py, whenever the complete rows form a non-empty list and
the first complete row has no zero price, the first output row is exactly 1.0
in every instrument column and the output has one row per complete input row;
for the unguarded normalize_data of main_corr.py, main_dash.py and
main_plot.py, whenever the FIRST row of the table itself is gap-free with no
zero price, the first output row is exactly 1.0 in every column (a gap in the
first row propagates into every output row instead, and an empty table
faults).  The counterexample above forces these provisos; the nonzero one is
forced by float division, where a zero base price yields 0/0. -/
theorem c5_first_row_all_ones (df : Table) (b : Row) (rest : List Row)
    (hb : dropnaAny df = b :: rest) (hnz : ∀ q : ℚ, some q ∈ b → q ≠ 0) :
    ((normalize_data df).head? = some (b.map (fun _ => (some 1 : Entry)))
      ∧ (normalize_data df).length = (dropnaAny df).length)
      ∧ ∀ b2 rest2, df = b2 :: rest2 → (∀ e ∈ b2, e.isSome) →
          (∀ q : ℚ, some q ∈ b2 → q ≠ 0) →
          ∃ t2, normalize_data_corr df = some t2
            ∧ t2.head? = some (b2.map (fun _ => (some 1 : Entry)))
            ∧ t2.length = df.length := by
  have hbc : ∀ e ∈ b, e.isSome := by
    have hm : b ∈ dropnaAny df := by rw [hb]; exact List.mem_cons_self _ _
    exact complete_of_rowAnyNA_false (mem_dropnaAny hm).2
  refine ⟨⟨?_, ?_⟩, ?_⟩
  · simp [normalize_data, hb, rowDiv_self hbc hnz]
  · simp [normalize_data, hb]
  · intro b2 rest2 hdf hc2 hz2
    subst hdf
    refine ⟨(b2 :: rest2).map (fun r => rowDiv r b2), rfl, ?_, by simp⟩
    simp [rowDiv_self hc2 hz2]

theorem c5_first_row_all_ones_witness :
    ((normalize_data dfTwoByTwo).head? = some [some 1, some 1]
      ∧ (normalize_data dfTwoByTwo).length = (dropnaAny dfTwoByTwo).length)
      ∧ ∃ t2, normalize_data_corr dfTwoByTwo = some t2
          ∧ t2.head? = some [some 1, some 1]
          ∧ t2.length = dfTwoByTwo.length := by
  have h := c5_first_row_all_ones dfTwoByTwo [some 2, some 4] [[some 3, some 8]]
    (by rfl)
    (by intro q hq; simp at hq; rcases hq with rfl | rfl <;> decide)
  refine ⟨⟨h.1.1, h.1.2⟩, ?_⟩
  exact h.2 [some 2, some 4] [[some 3, some 8]] rfl
    (by intro e he; simp at he; rcases he with rfl | rfl <;> rfl)
    (by intro q hq; simp at hq; rcases hq with rfl | rfl <;> decide)

/-! ### Claim C10 (amended theorem and witness) -/

/-- Claim C10 (amended): normalize_data first removes every date row containing
at least one missing value (not only all-missing rows) and then divides by the
first remaining row; provided that row has no zero price, the output has no
missing cell at all and consists of exactly the complete rows of the input,
divided by the base row.  (The zero-price proviso is forced by the
counterexample above: a zero base price divides 0 by 0.) -/
theorem c10_normalize_complete_rows (df : Table) (m : ℕ) (hm : ∀ r ∈ df, r.length = m)
    (b : Row) (rest : List Row) (hb : dropnaAny df = b :: rest)
    (hnz : ∀ q : ℚ, some q ∈ b → q ≠ 0) :
    normalize_data df = (df.filter (fun r => !rowAnyNA r)).map (fun r => rowDiv r b)
      ∧ ∀ r ∈ normalize_data df, (∀ e ∈ r, e.isSome) ∧ r.length = m := by
  have h1 : normalize_data df = (dropnaAny df).map (fun r => rowDiv r b) := by
    simp [normalize_data, hb]
  have hbmem := mem_dropnaAny (t := df) (r := b) (by rw [hb]; exact List.mem_cons_self _ _)
  have hbc : ∀ e ∈ b, e.isSome := complete_of_rowAnyNA_false hbmem.2
  have hlb : b.length = m := hm b hbmem.1
  constructor
  · rw [h1]; rfl
  · intro r hr
    rw [h1] at hr
    rcases List.mem_map.mp hr with ⟨r2, hr2, rfl⟩
    have hmem := mem_dropnaAny hr2
    have hc2 : ∀ e ∈ r2, e.isSome := complete_of_rowAnyNA_false hmem.2
    refine ⟨rowDiv_isSome hc2 hbc hnz, ?_⟩
    simp [rowDiv, List.length_zipWith, hm r2 hmem.1, hlb]

theorem c10_normalize_complete_rows_witness :
    normalize_data dfGapThenFull
        = (dfGapThenFull.filter (fun r => !rowAnyNA r)).map (fun r => rowDiv r [some 4, some 8])
      ∧ ∀ r ∈ normalize_data dfGapThenFull, (∀ e ∈ r, e.isSome) ∧ r.length = 2 :=
  c10_normalize_complete_rows dfGapThenFull 2
    (by intro r hr; simp [dfGapThenFull] at hr; rcases hr with rfl | rfl | rfl <;> rfl)
    [some 4, some 8] [[some 6, some 16]] (by rfl)
    (by intro q hq; simp at hq; rcases hq with rfl | rfl <;> decide)

/-! ### Claim C6 (amended theorem and witness) -/

/-- Claim C6 (amended): for every PriceTable with at least one row and at least
one instrument column, the returns frame is the list of consecutive-row percent
changes with the first row and every row containing an undefined value dropped,
each retained cell being price[t]/price[t-1] - 1, and there is a k with
1 ≤ k ≤ len(table) and len(returns) = len(table) - k (so the length difference
is at least one and the length never goes negative).  At the empty table the
claimed identity has no witness, as the counterexample above shows. -/
theorem c6_returns_shape (df : Table) (m : ℕ) (hdf : df ≠ []) (hm : ∀ r ∈ df, r.length = m)
    (h1 : 1 ≤ m) :
    (∃ k, 1 ≤ k ∧ k ≤ df.length ∧ (calculate_returns df).length + k = df.length)
      ∧ calculate_returns df = (List.zipWith pctRow df df.tail).filter (fun r => !rowAnyNA r)
      ∧ ∀ (j i : ℕ) (a cq : ℚ), j + 1 < df.length → i < m → a ≠ 0 →
          (df.getD j []).getD i none = some a →
          (df.getD (j + 1) []).getD i none = some cq →
          ((pct_change df).getD (j + 1) []).getD i none = some (cq / a - 1) := by
  obtain ⟨b, rest, rfl⟩ : ∃ b rest, df = b :: rest := by
    cases df with
    | nil => exact absurd rfl hdf
    | cons b rest => exact ⟨b, rest, rfl⟩
  have hbne : b ≠ [] := by
    have := hm b (List.mem_cons_self _ _)
    intro hempty
    rw [hempty] at this
    simp at this
    omega
  have hna : rowAnyNA (b.map (fun _ => (none : Entry))) = true := firstRow_anyNA hbne
  have heq : calculate_returns (b :: rest)
      = (List.zipWith pctRow (b :: rest) rest).filter (fun r => !rowAnyNA r) := by
    simp only [calculate_returns, pct_change, dropnaAny, List.filter_cons, hna,
      Bool.not_true, if_neg (by simp : ¬ (false = true))]
  refine ⟨?_, heq, ?_⟩
  · have h2 := List.length_filter_le (fun r => !rowAnyNA r) (List.zipWith pctRow (b :: rest) rest)
    have h3 : (List.zipWith pctRow (b :: rest) rest).length = rest.length := by
      simp [List.length_zipWith]
    have hlen : (calculate_returns (b :: rest)).length ≤ rest.length := by
      rw [heq]; omega
    exact ⟨(b :: rest).length - (calculate_returns (b :: rest)).length,
      by simp only [List.length_cons]; omega,
      by simp only [List.length_cons]; omega,
      by simp only [List.length_cons]; omega⟩
  · intro j i a cq hj hi ha hja hjc
    have hgd : ((pct_change (b :: rest)).getD (j + 1) [])
        = pctRow ((b :: rest).getD j []) ((b :: rest).getD (j + 1) []) := by
      have : (pct_change (b :: rest)).getD (j + 1) []
          = (List.zipWith pctRow (b :: rest) rest).getD j [] := by
        simp [pct_change]
      rw [this]
      exact zip_tail_getD pctRow (b :: rest) j hj
    rw [hgd, pctRow,
      row_zip_getD pctEntry _ _ i
        (by rw [hm _ (getD_row_mem _ j (by omega))]; exact hi)
        (by rw [hm _ (getD_row_mem _ (j + 1) (by omega))]; exact hi),
      hja, hjc]
    rfl

theorem c6_returns_shape_witness :
    (∃ k, 1 ≤ k ∧ k ≤ dfThreeRows.length
        ∧ (calculate_returns dfThreeRows).length + k = dfThreeRows.length)
      ∧ calculate_returns dfThreeRows
          = (List.zipWith pctRow dfThreeRows dfThreeRows.tail).filter (fun r => !rowAnyNA r)
      ∧ ∀ (j i : ℕ) (a cq : ℚ), j + 1 < dfThreeRows.length → i < 1 → a ≠ 0 →
          (dfThreeRows.getD j []).getD i none = some a →
          (dfThreeRows.getD (j + 1) []).getD i none = some cq →
          ((pct_change dfThreeRows).getD (j + 1) []).getD i none = some (cq / a - 1) :=
  c6_returns_shape dfThreeRows 1 (by simp [dfThreeRows])
    (by intro r hr; simp [dfThreeRows] at hr; rcases hr with rfl | rfl | rfl <;> rfl)
    (le_refl 1)

/-! ### Claim C2 (amended theorem and witness) -/

theorem zipWith_pctRow_length (m : ℕ) :
    ∀ (t u : Table), (∀ r ∈ t, r.length = m) → (∀ r ∈ u, r.length = m) →
      ∀ r ∈ List.zipWith pctRow t u, r.length = m := by
  intro t
  induction t with
  | nil => intro u _ _ r hr; simp at hr
  | cons a t ih =>
    intro u ht hu r hr
    cases u with
    | nil => simp at hr
    | cons cs u =>
      simp only [List.zipWith_cons_cons, List.mem_cons] at hr
      rcases hr with rfl | hr
      · simp [pctRow, List.length_zipWith, ht a (by simp), hu cs (by simp)]
      · exact ih u (fun r2 hr2 => ht r2 (by simp [hr2])) (fun r2 hr2 => hu r2 (by simp [hr2])) r hr

theorem pct_rows_length {df : Table} {m : ℕ} (hm : ∀ r ∈ df, r.length = m) :
    ∀ r ∈ pct_change df, r.length = m := by
  cases df with
  | nil => intro r hr; simp [pct_change] at hr
  | cons b rest =>
    intro r hr
    simp only [pct_change, List.mem_cons] at hr
    rcases hr with rfl | hr
    · simp [hm b (by simp)]
    · exact zipWith_pctRow_length m (b :: rest) rest hm
        (fun r2 hr2 => hm r2 (by simp [hr2])) r hr

theorem retTable_rows {df : Table} {m : ℕ} (hm : ∀ r ∈ df, r.length = m) :
    ∀ r ∈ retTable df, (∀ e ∈ r, e.isSome) ∧ r.length = m := by
  intro r hr
  have hr2 : r ∈ dropnaAny (pct_change df) := hr
  have h2 := mem_dropnaAny hr2
  exact ⟨complete_of_rowAnyNA_false h2.2, pct_rows_length hm r h2.1⟩

theorem pairObs_cons_defined {r : Row} {rest : Table} {i j : ℕ}
    (hisi : (r.getD i none).isSome = true) (hisj : (r.getD j none).isSome = true) :
    pairObs (r :: rest) i j
      = ((r.getD i none).getD 0, (r.getD j none).getD 0) :: pairObs rest i j := by
  obtain ⟨a, ha⟩ := Option.isSome_iff_exists.mp hisi
  obtain ⟨bq, hbq⟩ := Option.isSome_iff_exists.mp hisj
  unfold pairObs
  rw [List.filterMap_cons]
  simp only [List.getD_eq_getElem?_getD] at ha hbq
  simp [ha, hbq]

theorem pairObs_eq_cols {t : Table} {m : ℕ}
    (h : ∀ r ∈ t, (∀ e ∈ r, e.isSome) ∧ r.length = m) (i j : ℕ) (hi : i < m) (hj : j < m) :
    (pairObs t i j).map Prod.fst = colQ t i ∧ (pairObs t i j).map Prod.snd = colQ t j := by
  induction t with
  | nil => simp [pairObs, colQ]
  | cons r rest ih =>
    have hr := h r (by simp)
    have hisi : (r.getD i none).isSome = true :=
      hr.1 _ (getD_entry_mem r i (by rw [hr.2]; exact hi))
    have hisj : (r.getD j none).isSome = true :=
      hr.1 _ (getD_entry_mem r j (by rw [hr.2]; exact hj))
    have ih2 := ih (fun r2 hr2 => h r2 (by simp [hr2]))
    rw [pairObs_cons_defined hisi hisj]
    constructor
    · simp only [List.map_cons, colQ, ih2.1]
    · simp only [List.map_cons, colQ, ih2.2]

/-- Claim C2 (amended): the correlation of plot_correlation is computed over
only the dates at which EVERY instrument of the frame has a defined return
(returns.dropna() keeps exactly the complete rows); on that complete-case frame
the pairwise-complete observations of any two instruments coincide with the
full columns, so the computed cell equals the pairwise formula applied to the
complete-case rows, not to the pairwise-complete rows of the gapped return
frame (which the counterexample above separates). -/
theorem c2_code_corr_is_complete_case (df : Table) (m i j : ℕ)
    (hm : ∀ r ∈ df, r.length = m) (hi : i < m) (hj : j < m) :
    (pairObs (retTable df) i j).map Prod.fst = colQ (retTable df) i
      ∧ (pairObs (retTable df) i j).map Prod.snd = colQ (retTable df) j
      ∧ corrNum df i j
          = sNum ((pairObs (retTable df) i j).map Prod.fst)
              ((pairObs (retTable df) i j).map Prod.snd) := by
  obtain ⟨h1, h2⟩ := pairObs_eq_cols (retTable_rows hm) i j hi hj
  exact ⟨h1, h2, by rw [corrNum, h1, h2]⟩

theorem c2_code_corr_is_complete_case_witness :
    (pairObs (retTable tThirdGapped) 0 1).map Prod.fst = colQ (retTable tThirdGapped) 0
      ∧ (pairObs (retTable tThirdGapped) 0 1).map Prod.snd = colQ (retTable tThirdGapped) 1
      ∧ corrNum tThirdGapped 0 1
          = sNum ((pairObs (retTable tThirdGapped) 0 1).map Prod.fst)
              ((pairObs (retTable tThirdGapped) 0 1).map Prod.snd) :=
  c2_code_corr_is_complete_case tThirdGapped 3 0 1
    (by intro r hr; simp [tThirdGapped] at hr
        rcases hr with rfl | rfl | rfl | rfl | rfl <;> rfl)
    (by decide) (by decide)

/-! ### Claim C7 (amended theorem and witness) -/

theorem pctRow_complete {p : Row} :
    ∀ {cs : Row}, (∀ e ∈ p, e.isSome) → (∀ e ∈ cs, e.isSome) →
      ∀ e ∈ pctRow p cs, e.isSome := by
  induction p with
  | nil => intro cs _ _ e he; simp [pctRow] at he
  | cons x xs ih =>
    intro cs hp hcs e he
    cases cs with
    | nil => simp [pctRow] at he
    | cons y ys =>
      simp only [pctRow, List.zipWith_cons_cons, List.mem_cons] at he
      rcases he with rfl | he
      · have hx := hp x (by simp)
        have hy := hcs y (by simp)
        obtain ⟨a, ha⟩ := Option.isSome_iff_exists.mp hx
        obtain ⟨bq, hbq⟩ := Option.isSome_iff_exists.mp hy
        subst ha hbq
        rfl
      · exact ih (fun e2 h2 => hp e2 (by simp [h2])) (fun e2 h2 => hcs e2 (by simp [h2])) e he

theorem zipWith_pctRow_complete :
    ∀ (t u : Table), (∀ r ∈ t, ∀ e ∈ r, e.isSome) → (∀ r ∈ u, ∀ e ∈ r, e.isSome) →
      ∀ r ∈ List.zipWith pctRow t u, ∀ e ∈ r, e.isSome := by
  intro t
  induction t with
  | nil => intro u _ _ r hr; simp at hr
  | cons a t ih =>
    intro u ht hu r hr
    cases u with
    | nil => simp at hr
    | cons cs u =>
      simp only [List.zipWith_cons_cons, List.mem_cons] at hr
      rcases hr with rfl | hr
      · exact pctRow_complete (ht a (by simp)) (hu cs (by simp))
      · exact ih u (fun r2 h2 => ht r2 (by simp [h2])) (fun r2 h2 => hu r2 (by simp [h2])) r hr

theorem getD_map_const_none (b : Row) (i : ℕ) :
    (List.map (fun _ => (none : Entry)) b).getD i none = none := by
  induction b generalizing i with
  | nil => simp
  | cons e b ih => cases i <;> simp [ih]

theorem col_complete {t : Table} {m : ℕ} (i : ℕ)
    (h : ∀ r ∈ t, (∀ e ∈ r, e.isSome) ∧ r.length = m) (hi : i < m) :
    ∀ e ∈ col t i, e.isSome := by
  intro e he
  simp only [col, List.mem_map] at he
  obtain ⟨r, hr, rfl⟩ := he
  exact (h r hr).1 _ (getD_entry_mem r i (by rw [(h r hr).2]; exact hi))

theorem getD_map_range (f : ℕ → Entry) (n k : ℕ) (hk : k < n) :
    ((List.range n).map f).getD k none = f k := by
  rw [List.getD_eq_getElem _ _ (by simp [hk])]
  simp

/-- Claim C7 (amended): plot_volatility computes the rolling standard deviation
of the RETURN series df.pct_change() (not the raw price series) per instrument,
and relative to the price frame's date index exactly the leading w cells are
undefined for a gap-free price frame and window w of at least 2: the first
price row, which has no return, adds one row to the w - 1 rolling warm-up. -/
theorem c7_volatility_defined_iff (df : Table) (m i w : ℕ)
    (hm : ∀ r ∈ df, r.length = m)
    (hcom : ∀ r ∈ df, ∀ e ∈ r, e.isSome)
    (hi : i < m) (hw : 2 ≤ w) :
    (volatilityCol df i w).length = df.length
      ∧ ∀ k, k < df.length → ((volatilityCol df i w).getD k none = none ↔ k < w) := by
  have hlen : (col (pct_change df) i).length = df.length := by
    simp [col, pct_change_length]
  constructor
  · simp [volatilityCol, rollingVar, hlen]
  · cases df with
    | nil => intro k hk; simp at hk
    | cons b rest =>
      have hysc : col (pct_change (b :: rest)) i
          = none :: col (List.zipWith pctRow (b :: rest) rest) i := by
        simp [col, pct_change, getD_map_const_none]
      have hzs : ∀ e ∈ col (List.zipWith pctRow (b :: rest) rest) i, e.isSome := by
        apply col_complete (m := m) i ?_ hi
        intro r hr
        exact ⟨zipWith_pctRow_complete _ _ hcom (fun r2 h2 => hcom r2 (by simp [h2])) r hr,
          zipWith_pctRow_length m _ _ hm (fun r2 h2 => hm r2 (by simp [h2])) r hr⟩
      intro k hk
      have hkl : k < (col (pct_change (b :: rest)) i).length := by rw [hlen]; exact hk
      have hgd : (volatilityCol (b :: rest) i w).getD k none
          = (if k + 1 < w ∨ w < 2 then none
             else if (windowAt (col (pct_change (b :: rest)) i) w k).all Option.isSome then
               some (sampleVar ((windowAt (col (pct_change (b :: rest)) i) w k).map
                 (fun e => e.getD 0)))
             else none) := by
        rw [volatilityCol, rollingVar]
        exact getD_map_range _ _ k hkl
      rw [hgd]
      by_cases h1 : k + 1 < w
      · rw [if_pos (Or.inl h1)]
        exact iff_of_true rfl (by omega)
      · have hcond : ¬ (k + 1 < w ∨ w < 2) := by omega
        rw [if_neg hcond]
        by_cases h2 : k < w
        · have hkw : k + 1 - w = 0 := by omega
          have hfalse : (windowAt (col (pct_change (b :: rest)) i) w k).all Option.isSome
              = false := by
            rw [windowAt, hkw, List.drop_zero, hysc, List.take_succ_cons]
            simp
          rw [hfalse]
          simp [h2]
        · have hallsome : (windowAt (col (pct_change (b :: rest)) i) w k).all Option.isSome
              = true := by
            rw [List.all_eq_true]
            intro e he
            apply hzs
            rw [windowAt, hysc, List.take_succ_cons] at he
            have hd : k + 1 - w = (k - w) + 1 := by omega
            rw [hd, List.drop_succ_cons] at he
            exact List.mem_of_mem_take (List.mem_of_mem_drop he)
          rw [hallsome]
          simp [h2]

theorem c7_volatility_defined_iff_witness :
    (volatilityCol tFourDays 0 2).length = tFourDays.length
      ∧ ∀ k, k < tFourDays.length → ((volatilityCol tFourDays 0 2).getD k none = none ↔ k < 2) :=
  c7_volatility_defined_iff tFourDays 1 0 2
    (by intro r hr; simp [tFourDays] at hr; rcases hr with rfl | rfl | rfl | rfl <;> rfl)
    (by intro r hr; simp [tFourDays] at hr; rcases hr with rfl | rfl | rfl | rfl <;> simp)
    (by decide) (by decide)

/-! ### Claim C8 (theorem and witness) -/

theorem entrySum_map_some (l : List ℚ) : entrySum (l.map some) = l.sum := by
  unfold entrySum
  induction l with
  | nil => rfl
  | cons x l ih => simp_all

theorem ewmFrom_length (a : ℚ) (l : List ℚ) : ∀ s : ℚ, (ewmFrom a s l).length = l.length := by
  induction l with
  | nil => intro s; rfl
  | cons x rest ih => intro s; simp [ewmFrom, ih]

theorem ewmFrom_getD (a : ℚ) :
    ∀ (l : List ℚ) (s : ℚ) (k : ℕ), k < l.length →
      (s :: ewmFrom a s l).getD (k + 1) 0
        = (1 - a) * (s :: ewmFrom a s l).getD k 0 + a * l.getD k 0 := by
  intro l
  induction l with
  | nil => intro s k hk; simp at hk
  | cons x rest ih =>
    intro s k hk
    cases k with
    | zero => simp [ewmFrom]
    | succ k =>
      have ihh := ih ((1 - a) * s + a * x) k (by simpa using hk)
      simp only [ewmFrom, List.getD_cons_succ] at ihh ⊢
      exact ihh

theorem ewmRun_complete (a : ℚ) :
    ∀ (rest : List ℚ) (avg : ℚ),
      ewmRun a (some (avg, 1)) (rest.map some) = (ewmFrom a avg rest).map some := by
  intro rest
  induction rest with
  | nil => intro avg; rfl
  | cons x rest ih =>
    intro avg
    have key : (1 * (1 - a) * avg + a * x) / (1 * (1 - a) + a) = (1 - a) * avg + a * x := by
      have h1 : 1 * (1 - a) + a = 1 := by ring
      rw [h1, div_one]
      ring
    simp only [List.map_cons, ewmRun, ewmFrom]
    rw [key, ih ((1 - a) * avg + a * x)]

theorem ewm_na_complete (xs : List ℚ) (w : ℕ) :
    ewm_mean_na (xs.map some) w = (ewm_mean xs w).map some := by
  cases xs with
  | nil => rfl
  | cons x rest =>
    simp only [List.map_cons, ewm_mean_na, ewm_mean, ewmRun]
    rw [ewmRun_complete]

/-- Claim C8 (counterexample): the claim quantifies over every price series,
but on a series whose first value is missing (an instrument that starts
trading after the frame's first date — such columns survive load_data, which
only drops all-missing rows), ewm(span, adjust equal to False).mean() outputs
a missing value at the first row: it is not defined from the first row onward
and its first value is not the first price; the state is seeded by the first
observation instead, which is returned unchanged at its own row. -/
theorem c8_leading_gap_ema_undefined :
    (ewm_mean_na sLeadingGap 5).getD 0 (some 0) = none
      ∧ (ewm_mean_na sLeadingGap 5).getD 1 none = some 5
      ∧ (ewm_mean_na sLeadingGap 5).length = 3 := by
  exact ⟨rfl, rfl, rfl⟩

/-- Claim C8 (amended): for a GAP-FREE price series — the proviso the
counterexample above forces on the EXPONENTIAL conjuncts — the SIMPLE moving
average df[column].rolling(w).mean() has the same length as the series, is
undefined while fewer than w observations exist (so on a 3-row series with
w = 5 every cell is undefined), and once w observations exist it is the
unweighted mean of the trailing w observations; the EXPONENTIAL moving average
df[column].ewm(span equal to w, adjust equal to False).mean() assigns a value
to every row (same length, no undefined leading region), its first value is
the first price, and each later value follows the recurrence
y = (1 - a) * y_prev + a * x with smoothing factor a = 2 / (w + 1).  The last
conjunct ties the gap-free reading to the missing-value-aware model: on a
gap-free series ewm_mean_na coincides with ewm_mean. -/
theorem c8_moving_average (xs : List ℚ) (w : ℕ) (hw : 1 ≤ w) :
    ((rollingMean (xs.map some) w).length = xs.length
      ∧ ∀ k, k < xs.length →
          (k + 1 < w → (rollingMean (xs.map some) w).getD k none = none)
          ∧ (w ≤ k + 1 →
              (rollingMean (xs.map some) w).getD k none
                = some ((((xs.take (k + 1)).drop (k + 1 - w)).sum) / (w : ℚ))))
      ∧ ((ewm_mean xs w).length = xs.length
        ∧ (ewm_mean xs w).head? = xs.head?
        ∧ (∀ k, k + 1 < xs.length →
            (ewm_mean xs w).getD (k + 1) 0
              = (1 - 2 / ((w : ℚ) + 1)) * (ewm_mean xs w).getD k 0
                + (2 / ((w : ℚ) + 1)) * xs.getD (k + 1) 0)
        ∧ ewm_mean_na (xs.map some) w = (ewm_mean xs w).map some) := by
  refine ⟨⟨by simp [rollingMean], ?_⟩, ?_, ?_, ?_, ewm_na_complete xs w⟩
  · intro k hk
    have hkl : k < (xs.map some).length := by simpa using hk
    have hgd : (rollingMean (xs.map some) w).getD k none
        = (if k + 1 < w then none
           else if (windowAt (xs.map some) w k).all Option.isSome then
             some (entrySum (windowAt (xs.map some) w k) / (w : ℚ))
           else none) := by
      rw [rollingMean]
      exact getD_map_range _ _ k hkl
    constructor
    · intro h1
      rw [hgd, if_pos h1]
    · intro h1
      have hwin : windowAt (xs.map some) w k = ((xs.take (k + 1)).drop (k + 1 - w)).map some := by
        rw [windowAt, ← List.map_take, ← List.map_drop]
      have hcond : (windowAt (xs.map some) w k).all Option.isSome = true := by
        rw [List.all_eq_true]
        intro e he
        have he2 : e ∈ xs.map some :=
          List.mem_of_mem_take (List.mem_of_mem_drop he)
        obtain ⟨a, _, rfl⟩ := List.mem_map.mp he2
        rfl
      rw [hgd, if_neg (by omega), if_pos hcond, hwin, entrySum_map_some]
  · simp [ewm_mean]
    cases xs with
    | nil => rfl
    | cons x rest => simp [ewmFrom_length]
  · cases xs with
    | nil => rfl
    | cons x rest => rfl
  · intro k hk
    cases xs with
    | nil => simp at hk
    | cons x rest =>
      have hkr : k < rest.length := by simpa using hk
      have h := ewmFrom_getD (2 / ((w : ℚ) + 1)) rest x k hkr
      simpa [ewm_mean] using h

theorem c8_moving_average_witness :
    (rollingMean ([10, 11, 12].map some) 5).getD 2 none = none
      ∧ (ewm_mean [10, 11, 12] 5).head? = some 10
      ∧ (ewm_mean [10, 11, 12] 5).length = 3 := by
  have h := c8_moving_average [10, 11, 12] 5 (by decide)
  exact ⟨(h.1.2 2 (by decide)).1 (by decide), h.2.2.1, h.2.1⟩

/-! ### Claim C3 (amended theorem and witness) -/

theorem onePlus_pctRow {cs : Row} (hc : ∀ e ∈ cs, e.isSome)
    (hnz : ∀ q : ℚ, some q ∈ cs → q ≠ 0) :
    ∀ d : Row, onePlusRow (pctRow cs d) = rowDiv d cs := by
  induction cs with
  | nil => intro d; cases d <;> rfl
  | cons e cs ih =>
    intro d
    have he := hc e (by simp)
    obtain ⟨p, rfl⟩ := Option.isSome_iff_exists.mp he
    have hp : p ≠ 0 := hnz p (by simp)
    have ihh := ih (fun e2 h2 => hc e2 (by simp [h2])) (fun q hq => hnz q (by simp [hq]))
    cases d with
    | nil => rfl
    | cons x xs =>
      have ihh2 := ihh xs
      simp only [onePlusRow, pctRow, rowDiv] at ihh2
      cases x with
      | none => simp [pctRow, onePlusRow, rowDiv, pctEntry, qdiv, ihh2]
      | some s =>
        have harith : 1 + (s / p - 1) = s / p := by ring
        simp [pctRow, onePlusRow, rowDiv, pctEntry, qdiv, hp, ihh2, harith]

theorem qmul_div_div {p : ℚ} (hp : p ≠ 0) (y x : Entry) :
    qmul (qdiv (some p) y) (qdiv x (some p)) = qdiv x y := by
  cases y with
  | none => cases x <;> simp [qdiv, qmul]
  | some q =>
    by_cases hq : q = 0
    · subst hq
      cases x <;> simp [qdiv, qmul, hp]
    · cases x with
      | none => simp [qdiv, qmul, hq]
      | some s =>
        have harith : p / q * (s / p) = s / q := by
          field_simp
          ring
        simp [qdiv, qmul, hq, hp, harith]

theorem rowMul_div_div {b : Row} :
    ∀ (cs d : Row), (∀ e ∈ cs, e.isSome) → (∀ q : ℚ, some q ∈ cs → q ≠ 0) →
      cs.length = b.length → d.length = b.length →
      rowMul (rowDiv cs b) (rowDiv d cs) = rowDiv d b := by
  induction b with
  | nil =>
    intro cs d _ _ hcl hdl
    have : cs = [] := List.length_eq_zero.mp (by simpa using hcl)
    have hd : d = [] := List.length_eq_zero.mp (by simpa using hdl)
    subst this; subst hd; rfl
  | cons y b ih =>
    intro cs d hcS hcZ hcl hdl
    cases cs with
    | nil => simp at hcl
    | cons e cs2 =>
      cases d with
      | nil => simp at hdl
      | cons x d2 =>
        have he := hcS e (by simp)
        obtain ⟨p, rfl⟩ := Option.isSome_iff_exists.mp he
        have hp : p ≠ 0 := hcZ p (by simp)
        have ihh := ih cs2 d2 (fun e2 h2 => hcS e2 (by simp [h2]))
          (fun q hq => hcZ q (by simp [hq])) (by simpa using hcl) (by simpa using hdl)
        simp only [rowDiv, rowMul, List.zipWith_cons_cons] at ihh ⊢
        rw [qmul_div_div hp y x]
        rw [ihh]

theorem rowMul_ones {x : Row} :
    ∀ {u : Row}, x.length ≤ u.length →
      rowMul (u.map (fun _ => (some 1 : Entry))) x = x := by
  induction x with
  | nil => intro u _; simp [rowMul]
  | cons e x2 ih =>
    intro u hu
    cases u with
    | nil => simp at hu
    | cons yu u2 =>
      have ihh := ih (u := u2) (by simpa using hu)
      simp only [List.map_cons, rowMul, List.zipWith_cons_cons] at ihh ⊢
      rw [ihh]
      cases e with
      | none => rfl
      | some a => simp [qmul]

theorem cumprodFrom_ratio {b : Row} :
    ∀ (rest : List Row) (cs : Row),
      (∀ e ∈ cs, e.isSome) → (∀ q : ℚ, some q ∈ cs → q ≠ 0) → cs.length = b.length →
      (∀ r ∈ rest, (∀ e ∈ r, e.isSome) ∧ (∀ q : ℚ, some q ∈ r → q ≠ 0)
          ∧ r.length = b.length) →
      cumprodFrom (rowDiv cs b) ((List.zipWith pctRow (cs :: rest) rest).map onePlusRow)
        = rest.map (fun r => rowDiv r b) := by
  intro rest
  induction rest with
  | nil => intro cs _ _ _ _; rfl
  | cons d rest2 ih =>
    intro cs hcS hcZ hcL hrest
    have hd := hrest d (by simp)
    simp only [List.zipWith_cons_cons, List.map_cons]
    rw [onePlus_pctRow hcS hcZ d]
    simp only [cumprodFrom]
    rw [rowMul_div_div cs d hcS hcZ hcL hd.2.2]
    rw [ih d hd.1 hd.2.1 hd.2.2 (fun r hr => hrest r (by simp [hr]))]

/-- Claim C3 (amended): for a gap-free non-empty PriceTable with nonzero
prices, cumulative_returns is the running product of (1 + return) over the
retained return rows, which telescopes: its row for date t is the price row at
t divided cell-wise by the FIRST price row, i.e. the growth factor since the
first trading day; this is exactly the tail of normalize_data, so the
cumulative-return curve is based at the normalization base date, not at the
second trading day (the counterexample above separates the two). -/
theorem c3_cumulative_is_growth_from_base (df : Table) (b : Row) (rest : List Row)
    (hdf : df = b :: rest)
    (hcom : ∀ r ∈ df, ∀ e ∈ r, e.isSome)
    (hnz : ∀ r ∈ df, ∀ q : ℚ, some q ∈ r → q ≠ 0)
    (hm : ∀ r ∈ df, r.length = b.length)
    (hb1 : 1 ≤ b.length) :
    cumulative_returns df = rest.map (fun r => rowDiv r b)
      ∧ normalize_data df = rowDiv b b :: rest.map (fun r => rowDiv r b) := by
  subst hdf
  have hdrop : dropnaAny (b :: rest) = b :: rest := dropnaAny_of_complete hcom
  have hbne : b ≠ [] := by
    intro h
    rw [h] at hb1
    simp at hb1
  constructor
  · have hna : rowAnyNA (b.map (fun _ => (none : Entry))) = true := firstRow_anyNA hbne
    have hcompleteZ : ∀ r ∈ List.zipWith pctRow (b :: rest) rest, ∀ e ∈ r, e.isSome :=
      zipWith_pctRow_complete _ _ hcom (fun r2 h2 => hcom r2 (by simp [h2]))
    have hret : dropnaAny (pct_change (b :: rest)) = List.zipWith pctRow (b :: rest) rest := by
      simp only [pct_change, dropnaAny, List.filter_cons, hna, Bool.not_true,
        if_neg (by simp : ¬ (false = true))]
      exact List.filter_eq_self.mpr (fun r hr => by simp [rowAnyNA_eq_false (hcompleteZ r hr)])
    cases rest with
    | nil => simp [cumulative_returns, hret]
    | cons d rest2 =>
      have hcum : cumulative_returns (b :: d :: rest2)
          = cumprodFrom ((pctRow b d).map (fun _ => (some 1 : Entry)))
              ((pctRow b d :: List.zipWith pctRow (d :: rest2) rest2).map onePlusRow) := by
        simp only [cumulative_returns, hret, List.zipWith_cons_cons]
      rw [hcum]
      have hone := onePlus_pctRow (hcom b (by simp)) (hnz b (by simp)) d
      simp only [List.map_cons, hone, cumprodFrom]
      have hlen : (rowDiv d b).length ≤ (pctRow b d).length := by
        simp only [rowDiv, pctRow, List.length_zipWith]
        omega
      rw [rowMul_ones hlen]
      rw [cumprodFrom_ratio rest2 d (hcom d (by simp)) (hnz d (by simp)) (hm d (by simp))
        (fun r hr => ⟨hcom r (by simp [hr]), hnz r (by simp [hr]), hm r (by simp [hr])⟩)]
  · simp [normalize_data, hdrop]

theorem c3_cumulative_is_growth_from_base_witness :
    cumulative_returns dfDoubling = [[some 4], [some 8]].map (fun r => rowDiv r [some 2])
      ∧ normalize_data dfDoubling
          = rowDiv [some 2] [some 2] :: [[some 4], [some 8]].map (fun r => rowDiv r [some 2]) :=
  c3_cumulative_is_growth_from_base dfDoubling [some 2] [[some 4], [some 8]] rfl
    (by intro r hr; simp [dfDoubling] at hr; rcases hr with rfl | rfl | rfl <;> simp)
    (by intro r hr; simp [dfDoubling] at hr
        rcases hr with rfl | rfl | rfl <;> (intro q hq; simp at hq; subst hq; decide))
    (by intro r hr; simp [dfDoubling] at hr; rcases hr with rfl | rfl | rfl <;> rfl)
    (by decide)

/-! ### Claim C9 (amended theorem and witness) -/

theorem list_sum_getD (l : List ℚ) : l.sum = ∑ k in Finset.range l.length, l.getD k 0 := by
  induction l with
  | nil => simp
  | cons x l ih =>
    rw [List.sum_cons, ih, List.length_cons, Finset.sum_range_succ']
    simp only [List.getD_cons_succ, List.getD_cons_zero]
    ring

theorem list_zip_sum_getD : ∀ (xs ys : List ℚ), xs.length = ys.length →
    (List.zipWith (fun a b => a * b) xs ys).sum
      = ∑ k in Finset.range xs.length, xs.getD k 0 * ys.getD k 0 := by
  intro xs
  induction xs with
  | nil => intro ys h; simp
  | cons x xs ih =>
    intro ys h
    cases ys with
    | nil => simp at h
    | cons y ys =>
      rw [List.zipWith_cons_cons, List.sum_cons, ih ys (by simpa using h),
        List.length_cons, Finset.sum_range_succ']
      simp only [List.getD_cons_succ, List.getD_cons_zero]
      ring

theorem finset_cs (n : ℕ) (X Y : ℕ → ℚ) :
    ((n : ℚ) * ∑ k in Finset.range n, X k * Y k
        - (∑ k in Finset.range n, X k) * (∑ k in Finset.range n, Y k)) ^ 2
      ≤ ((n : ℚ) * ∑ k in Finset.range n, X k * X k
          - (∑ k in Finset.range n, X k) * (∑ k in Finset.range n, X k))
        * ((n : ℚ) * ∑ k in Finset.range n, Y k * Y k
          - (∑ k in Finset.range n, Y k) * (∑ k in Finset.range n, Y k)) := by
  rcases Nat.eq_zero_or_pos n with hn | hn
  · subst hn; simp
  have key := Finset.sum_mul_sq_le_sq_mul_sq (Finset.range n)
    (fun k => (n : ℚ) * X k - ∑ k in Finset.range n, X k)
    (fun k => (n : ℚ) * Y k - ∑ k in Finset.range n, Y k)
  have e1 : ∑ k in Finset.range n,
      ((n : ℚ) * X k - ∑ k2 in Finset.range n, X k2) * ((n : ℚ) * Y k - ∑ k2 in Finset.range n, Y k2)
      = (n : ℚ) * ((n : ℚ) * (∑ k in Finset.range n, X k * Y k)
          - (∑ k in Finset.range n, X k) * (∑ k in Finset.range n, Y k)) := by
    have hexp : ∀ k, ((n : ℚ) * X k - ∑ k2 in Finset.range n, X k2)
          * ((n : ℚ) * Y k - ∑ k2 in Finset.range n, Y k2)
        = (n : ℚ) * (n : ℚ) * (X k * Y k)
          - ((n : ℚ) * (∑ k2 in Finset.range n, Y k2)) * X k
          - ((n : ℚ) * (∑ k2 in Finset.range n, X k2)) * Y k
          + (∑ k2 in Finset.range n, X k2) * (∑ k2 in Finset.range n, Y k2) := by
      intro k; ring
    rw [Finset.sum_congr rfl (fun k _ => hexp k)]
    rw [Finset.sum_add_distrib, Finset.sum_sub_distrib, Finset.sum_sub_distrib,
      ← Finset.mul_sum, ← Finset.mul_sum, ← Finset.mul_sum, Finset.sum_const,
      Finset.card_range, nsmul_eq_mul]
    ring
  have e2 : ∑ k in Finset.range n,
      ((n : ℚ) * X k - ∑ k2 in Finset.range n, X k2) ^ 2
      = (n : ℚ) * ((n : ℚ) * (∑ k in Finset.range n, X k * X k)
          - (∑ k in Finset.range n, X k) * (∑ k in Finset.range n, X k)) := by
    have hexp : ∀ k, ((n : ℚ) * X k - ∑ k2 in Finset.range n, X k2) ^ 2
        = (n : ℚ) * (n : ℚ) * (X k * X k)
          - (2 * ((n : ℚ) * (∑ k2 in Finset.range n, X k2))) * X k
          + (∑ k2 in Finset.range n, X k2) * (∑ k2 in Finset.range n, X k2) := by
      intro k; ring
    rw [Finset.sum_congr rfl (fun k _ => hexp k)]
    rw [Finset.sum_add_distrib, Finset.sum_sub_distrib,
      ← Finset.mul_sum, ← Finset.mul_sum, Finset.sum_const,
      Finset.card_range, nsmul_eq_mul]
    ring
  have e3 : ∑ k in Finset.range n,
      ((n : ℚ) * Y k - ∑ k2 in Finset.range n, Y k2) ^ 2
      = (n : ℚ) * ((n : ℚ) * (∑ k in Finset.range n, Y k * Y k)
          - (∑ k in Finset.range n, Y k) * (∑ k in Finset.range n, Y k)) := by
    have hexp : ∀ k, ((n : ℚ) * Y k - ∑ k2 in Finset.range n, Y k2) ^ 2
        = (n : ℚ) * (n : ℚ) * (Y k * Y k)
          - (2 * ((n : ℚ) * (∑ k2 in Finset.range n, Y k2))) * Y k
          + (∑ k2 in Finset.range n, Y k2) * (∑ k2 in Finset.range n, Y k2) := by
      intro k; ring
    rw [Finset.sum_congr rfl (fun k _ => hexp k)]
    rw [Finset.sum_add_distrib, Finset.sum_sub_distrib,
      ← Finset.mul_sum, ← Finset.mul_sum, Finset.sum_const,
      Finset.card_range, nsmul_eq_mul]
    ring
  rw [e1, e2, e3] at key
  have hn2 : (0 : ℚ) < (n : ℚ) := by exact_mod_cast hn
  have key2 : (n : ℚ) ^ 2 * (((n : ℚ) * (∑ k in Finset.range n, X k * Y k)
        - (∑ k in Finset.range n, X k) * (∑ k in Finset.range n, Y k)) ^ 2)
      ≤ (n : ℚ) ^ 2 * (((n : ℚ) * (∑ k in Finset.range n, X k * X k)
          - (∑ k in Finset.range n, X k) * (∑ k in Finset.range n, X k))
        * ((n : ℚ) * (∑ k in Finset.range n, Y k * Y k)
          - (∑ k in Finset.range n, Y k) * (∑ k in Finset.range n, Y k))) := by
    nlinarith [key]
  exact le_of_mul_le_mul_left key2 (by positivity)

theorem sq_sNum_le (xs ys : List ℚ) (h : xs.length = ys.length) :
    sNum xs ys ^ 2 ≤ sNum xs xs * sNum ys ys := by
  have hxy : sNum xs ys = (xs.length : ℚ) * (∑ k in Finset.range xs.length, xs.getD k 0 * ys.getD k 0)
      - (∑ k in Finset.range xs.length, xs.getD k 0) * (∑ k in Finset.range xs.length, ys.getD k 0) := by
    rw [sNum, list_zip_sum_getD xs ys h, list_sum_getD xs, list_sum_getD ys, ← h]
  have hxx : sNum xs xs = (xs.length : ℚ) * (∑ k in Finset.range xs.length, xs.getD k 0 * xs.getD k 0)
      - (∑ k in Finset.range xs.length, xs.getD k 0) * (∑ k in Finset.range xs.length, xs.getD k 0) := by
    rw [sNum, list_zip_sum_getD xs xs rfl, list_sum_getD xs]
  have hyy : sNum ys ys = (xs.length : ℚ) * (∑ k in Finset.range xs.length, ys.getD k 0 * ys.getD k 0)
      - (∑ k in Finset.range xs.length, ys.getD k 0) * (∑ k in Finset.range xs.length, ys.getD k 0) := by
    rw [sNum, list_zip_sum_getD ys ys rfl, list_sum_getD ys, ← h]
  rw [hxy, hxx, hyy]
  exact finset_cs xs.length (fun k => xs.getD k 0) (fun k => ys.getD k 0)

theorem sNum_self_nonneg (xs : List ℚ) : 0 ≤ sNum xs xs := by
  have key := Finset.sum_mul_sq_le_sq_mul_sq (Finset.range xs.length)
    (fun k => xs.getD k 0) (fun _ => (1 : ℚ))
  have hxx : sNum xs xs = (xs.length : ℚ) * (∑ k in Finset.range xs.length, xs.getD k 0 * xs.getD k 0)
      - (∑ k in Finset.range xs.length, xs.getD k 0) * (∑ k in Finset.range xs.length, xs.getD k 0) := by
    rw [sNum, list_zip_sum_getD xs xs rfl, list_sum_getD xs]
  have hsq : ∑ k in Finset.range xs.length, (xs.getD k 0) ^ 2
      = ∑ k in Finset.range xs.length, xs.getD k 0 * xs.getD k 0 :=
    Finset.sum_congr rfl (fun k _ => by ring)
  simp only [mul_one, one_pow, Finset.sum_const, Finset.card_range, nsmul_eq_mul] at key
  rw [hxx]
  nlinarith [key, hsq]

theorem sNum_comm (xs ys : List ℚ) (h : xs.length = ys.length) : sNum xs ys = sNum ys xs := by
  rw [sNum, sNum, list_zip_sum_getD xs ys h, list_zip_sum_getD ys xs h.symm, ← h]
  have hc : ∑ k in Finset.range xs.length, ys.getD k 0 * xs.getD k 0
      = ∑ k in Finset.range xs.length, xs.getD k 0 * ys.getD k 0 :=
    Finset.sum_congr rfl (fun k _ => mul_comm _ _)
  rw [hc]
  ring

theorem colQ_length (t : Table) (i : ℕ) : (colQ t i).length = t.length := by
  simp [colQ]

/-- Claim C9 (amended): the correlation matrix of plot_correlation is square
(instrument by instrument) and symmetric; every cell satisfies the
Cauchy-Schwarz bound, so every DEFINED cell lies in [-1, 1] (the square of the
numerator is at most the square of the denominator); and a diagonal cell with
non-zero return variance has positive numerator whose square equals the squared
denominator, i.e. the cell is exactly 1.0 - in particular a single-instrument
frame with non-zero return variance yields the 1 by 1 matrix [[1.0]].  A zero
return variance leaves the cell undefined, as the counterexample above shows,
so the single-instrument conjunct needs the variance qualifier. -/
theorem c9_corr_matrix_props (df : Table) (m i j : ℕ) :
    ((corr_matrix df m).length = m ∧ ∀ row ∈ corr_matrix df m, row.length = m)
      ∧ corrNum df i j = corrNum df j i
      ∧ corrDenSq df i j = corrDenSq df j i
      ∧ corrNum df i j ^ 2 ≤ corrDenSq df i j
      ∧ (corrNum df i i ≠ 0 → 0 < corrNum df i i ∧ corrNum df i i ^ 2 = corrDenSq df i i) := by
  have hlen : (colQ (retTable df) i).length = (colQ (retTable df) j).length := by
    simp [colQ]
  refine ⟨⟨by simp [corr_matrix], ?_⟩, ?_, ?_, ?_, ?_⟩
  · intro row hrow
    simp only [corr_matrix, List.mem_map] at hrow
    obtain ⟨i2, _, rfl⟩ := hrow
    simp
  · exact sNum_comm _ _ hlen
  · exact mul_comm _ _
  · exact sq_sNum_le _ _ hlen
  · intro hne
    refine ⟨lt_of_le_of_ne (sNum_self_nonneg _) (Ne.symm hne), ?_⟩
    rw [corrDenSq, corrNum, sq]

theorem c9_corr_matrix_props_witness :
    ((corr_matrix dfVaried 1).length = 1 ∧ ∀ row ∈ corr_matrix dfVaried 1, row.length = 1)
      ∧ 0 < corrNum dfVaried 0 0 ∧ corrNum dfVaried 0 0 ^ 2 = corrDenSq dfVaried 0 0 := by
  have h := c9_corr_matrix_props dfVaried 1 0 0
  have hne : corrNum dfVaried 0 0 ≠ 0 := by
    norm_num [corrNum, sNum, colQ, retTable, dfVaried, pct_change, pctRow, pctEntry,
      dropnaAny, rowAnyNA, List.getD]
  exact ⟨h.1, h.2.2.2.2 hne⟩
